import Mathlib

/-!
Verification development for the RFDet local-feature detector
(`latency/ScalableNet_Net0.3/model/det.py`).

The tensor computations are shallowly embedded:

* score maps handled by `process` / `loss` are grids of rationals
  (`Fin B → Fin H → Fin W → ℚ`), so that the pipeline is executable and
  decidable on concrete inputs;
* the real-analytic parts of `forward` (instance norm, soft-max, L2
  normalisation) are embedded over `ℝ`;
* a tensor's channel dimension, where only the ordering of channels
  matters (`channel_shuffle`, `InvertedResidual.forward`), is a `List`.

Helper functions imported by det.py from `utils.image_utils` /
`utils.math_utils` (`filter_border`, `nms`, `topk_map`,
`get_gauss_filter_weight`, `soft_nms_3d`, `soft_max_and_argmax_1d`,
`L2Norm`) are not part of the provided sources; they are modelled from the
specification text and marked as such in their doc comments.
-/

namespace Det

/-! ## Channel shuffle (det.py lines 27-37)

`channel_shuffle(x, groups)` views the channel dimension as a
`groups × channels_per_group` matrix (row-major), transposes it, and
flattens it back.  Only the channel dimension is affected, so a tensor is
modelled as the list of its channel slices.  The definition below builds
the transposed matrix row by row (row `c` of the transpose holds entry
`x[g * cpg + c]` of view-row `g`) and flattens it, exactly mirroring
`view → transpose(1, 2) → view(batchsize, -1, h, w)`. -/
def channel_shuffle {α : Type} [Inhabited α] (x : List α) (groups : ℕ) : List α :=
  ((List.range (x.length / groups)).map (fun c =>
    (List.range groups).map (fun g =>
      x.getD (g * (x.length / groups) + c) default))).flatten

/-! ## InvertedResidual (det.py lines 39-101)

The learned convolutional stacks `banch1`/`banch2` are abstracted as
channel-list transformations carried by the structure: the claims about
this block concern its control flow (the stride assertion and the
`benchmodel` dispatch), which is independent of the convolution
arithmetic.  Python-level failure (the `assert`, and the
`UnboundLocalError` raised when `forward`'s `out` variable is never
assigned) is embedded with `Except String`. -/
structure InvertedResidual (α : Type) where
  benchmodel : ℤ
  stride : ℤ
  banch1 : List α → List α
  banch2 : List α → List α

/-- `InvertedResidual.__init__` (det.py lines 40-86): records `benchmodel`
and `stride` and builds the two branch stacks; `assert stride in [1, 2]`
is the only failure. -/
def InvertedResidual.init {α : Type} (banch1 banch2 : List α → List α)
    (inp oup stride benchmodel : ℤ) : Except String (InvertedResidual α) :=
  if stride = 1 ∨ stride = 2 then
    Except.ok ⟨benchmodel, stride, banch1, banch2⟩
  else
    Except.error "AssertionError: stride not in [1, 2]"

/-- `InvertedResidual.forward` (det.py lines 93-101): `benchmodel == 1`
splits the channels in half, transforms the second half by `banch2` and
concatenates; `benchmodel == 2` concatenates `banch1 x` with `banch2 x`;
any other `benchmodel` leaves the local variable `out` unassigned, so the
final `channel_shuffle(out, 2)` raises `UnboundLocalError`. -/
def InvertedResidual.forward {α : Type} [Inhabited α] (m : InvertedResidual α)
    (x : List α) : Except String (List α) :=
  if m.benchmodel = 1 then
    let x1 := x.take (x.length / 2)
    let x2 := x.drop (x.length / 2)
    Except.ok (channel_shuffle (x1 ++ m.banch2 x2) 2)
  else if m.benchmodel = 2 then
    Except.ok (channel_shuffle (m.banch1 x ++ m.banch2 x) 2)
  else
    Except.error "UnboundLocalError: local variable out referenced before assignment"

/-! ## The `process` post-processing pipeline (det.py lines 178-216)

A warped score map is a `(B, H, W, 1)` tensor; the trailing channel of
size 1 is dropped, so a map is `Fin B → Fin H → Fin W → ℚ`. -/

/-- Score-map grids: batch, row, column (the trailing channel of size 1
is dropped). -/
def ScoreMap (B H W : ℕ) : Type := Fin B → Fin H → Fin W → ℚ

/-- Modelled from the spec: `filter_border` (imported from
`utils.image_utils`, source not provided) zeroes out a fixed-width border
region of the score map; the width is the parameter `b`. -/
def filter_border {B H W : ℕ} (b : ℕ) (v : ScoreMap B H W) : ScoreMap B H W :=
  fun bi y x =>
    if b ≤ y.val ∧ y.val + b < H ∧ b ≤ x.val ∧ x.val + b < W then v bi y x else 0

/-- Modelled from the spec: `nms` (imported from `utils.image_utils`,
source not provided) produces a boolean mask that keeps a pixel exactly
when its value is the local maximum within a square window of side
`ksize` and exceeds the threshold `thresh`. -/
def nms {B H W : ℕ} (thresh : ℚ) (ksize : ℕ) (v : ScoreMap B H W) :
    Fin B → Fin H → Fin W → Bool :=
  fun bi y x =>
    decide ((∀ y' : Fin H, ∀ x' : Fin W,
        (y.val ≤ y'.val + ksize / 2 ∧ y'.val ≤ y.val + ksize / 2 ∧
         x.val ≤ x'.val + ksize / 2 ∧ x'.val ≤ x.val + ksize / 2) →
          v bi y' x' ≤ v bi y x) ∧ thresh < v bi y x)

/-- Row-major linear index of a pixel, used to break score ties in
`topk_map` deterministically. -/
def linIdx {H W : ℕ} (p : Fin H × Fin W) : ℕ := p.1.val * W + p.2.val

/-- Modelled from the spec: `topk_map` (imported from
`utils.image_utils`, source not provided) keeps, per image of the batch,
only the `k` highest-valued positions (ties broken
implementation-defined; modelled as smaller row-major index first): a
position survives iff fewer than `k` positions strictly dominate it in
the (value, then reversed index) order. -/
def topk_map {B H W : ℕ} (k : ℕ) (v : ScoreMap B H W) :
    Fin B → Fin H → Fin W → Bool :=
  fun bi y x =>
    decide ((Finset.univ.filter (fun p : Fin H × Fin W =>
      v bi y x < v bi p.1 p.2 ∨
        (v bi p.1 p.2 = v bi y x ∧ linIdx p < linIdx (y, x)))).card < k)

/-- Zero-padded access into a `Fin H → Fin W → ℚ` grid at signed
coordinates, as used by `F.conv2d` with zero padding. -/
def padQ {H W : ℕ} (f : Fin H → Fin W → ℚ) (y x : ℤ) : ℚ :=
  if h : 0 ≤ y ∧ y < (H : ℤ) ∧ 0 ≤ x ∧ x < (W : ℤ) then
    f ⟨y.toNat, by omega⟩ ⟨x.toNat, by omega⟩
  else 0

/-- The Gaussian-smoothing step of `process` (det.py lines 196-208):
`F.conv2d` with stride 1 and padding `gk / 2` of the score map against
the fixed kernel `psf`; for the odd kernel sizes used, the output has the
input's spatial size.  The kernel itself comes from
`get_gauss_filter_weight` (imported from `utils.image_utils`, source not
provided), modelled as an arbitrary fixed `gk × gk` kernel parameter. -/
def gauss_smooth {B H W : ℕ} (gk : ℕ) (psf : Fin gk → Fin gk → ℚ)
    (v : ScoreMap B H W) : ScoreMap B H W :=
  fun bi y x =>
    ∑ i : Fin gk, ∑ j : Fin gk,
      psf i j * padQ (v bi) ((y.val : ℤ) + i.val - (gk / 2 : ℕ))
        ((x.val : ℤ) + j.val - (gk / 2 : ℕ))

/-- `RFDet.process` (det.py lines 178-216).  The fields of `self` that it
reads (`NMS_THRESH`, `NMS_KSIZE`, `TOPK`, `GAUSSIAN_KSIZE`, and the
kernel produced from `GAUSSIAN_KSIZE`/`GAUSSIAN_SIGMA`) are passed
explicitly, together with the border width used by `filter_border`.
Returns `(smoothed-and-clamped score map, topk_mask, topk_value)`,
mirroring lines 184-216 step by step; multiplying the score map by a
0/1-valued mask (`im1w_score * nms_mask`,
`topk_mask.to(torch.float) * im1w_score`) is embedded as selection
`if mask then score else 0`. -/
def process {B H W : ℕ} (border : ℕ) (thresh : ℚ) (nksize topk gk : ℕ)
    (psf : Fin gk → Fin gk → ℚ) (v : ScoreMap B H W) :
    ScoreMap B H W × (Fin B → Fin H → Fin W → Bool) × ScoreMap B H W :=
  let s1 := filter_border border v
  let nms_mask := nms thresh nksize s1
  let s2 : ScoreMap B H W := fun bi y x =>
    if nms_mask bi y x then s1 bi y x else 0
  let topk_value := s2
  let topk_mask := topk_map topk s2
  let s3 : ScoreMap B H W := fun bi y x =>
    if topk_mask bi y x then s2 bi y x else 0
  let s4 := gauss_smooth gk psf s3
  let s5 : ScoreMap B H W := fun bi y x => min (max (s4 bi y x) 0) 1
  (s5, topk_mask, topk_value)

/-- The specification's description of `process`'s third return value
("pre-smoothing top-k-masked score values"): the score map after border
filtering, NMS masking **and** top-k masking.  Stated from the spec's
words, for comparison against what `process` actually returns. -/
def spec_topk_value {B H W : ℕ} (border : ℕ) (thresh : ℚ) (nksize topk : ℕ)
    (v : ScoreMap B H W) : ScoreMap B H W :=
  let s1 := filter_border border v
  let s2 : ScoreMap B H W := fun bi y x =>
    if nms thresh nksize s1 bi y x then s1 bi y x else 0
  fun bi y x => if topk_map topk s2 bi y x then s2 bi y x else 0

/-! ## The loss (det.py lines 218-229) -/

/-- The clamped visible-pixel count of `RFDet.loss` (det.py line 224):
`torch.clamp(im1visible_mask.sum(dim=(3, 2, 1)), min=2.0)`. -/
def Nvi {B C H W : ℕ} (mask : Fin B → Fin C → Fin H → Fin W → ℚ) (b : Fin B) : ℚ :=
  max (∑ c : Fin C, ∑ y : Fin H, ∑ x : Fin W, mask b c y x) 2

/-- `RFDet.loss` (det.py lines 218-229): per-batch-element masked squared
error, divided by `Nvi + 1e-8`, then averaged over the batch. -/
def loss {B C H W : ℕ}
    (left_score im1gt_score im1visible_mask : Fin B → Fin C → Fin H → Fin W → ℚ) : ℚ :=
  (∑ b : Fin B,
      (∑ c : Fin C, ∑ y : Fin H, ∑ x : Fin W,
        (left_score b c y x - im1gt_score b c y x) ^ 2 * im1visible_mask b c y x) /
        (Nvi im1visible_mask b + 1 / 100000000)) / (B : ℚ)

/-! ## The real-valued `forward` path (det.py lines 104-176)

`RFDet.forward` runs the backbone `self.features` (two `InvertedResidual`
blocks) and then the score / scale / orientation heads.  The head
computations (lines 148-176) are embedded over `ℝ`; the backbone output
(`feature_map`, a 12-channel grid) is left universally quantified in the
theorems below, which therefore cover every valid input image batch.  A
channel of a feature grid is a total function `ℕ → ℕ → ℝ` whose logical
extent `(H, W)` is tracked separately (needed for zero padding, instance
normalisation and resizing). -/

noncomputable section

/-- Multi-channel real-valued feature grids: channel, row, column. -/
def Chans (C : ℕ) : Type := Fin C → ℕ → ℕ → ℝ

/-- Zero-padded access into a grid of logical extent `(H, W)` at signed
coordinates, as used by convolution with zero padding. -/
def padR (H W : ℕ) (f : ℕ → ℕ → ℝ) (y x : ℤ) : ℝ :=
  if 0 ≤ y ∧ y < (H : ℤ) ∧ 0 ≤ x ∧ x < (W : ℤ) then f y.toNat x.toNat else 0

/-- `nn.Conv2d` with stride 1, square kernel `k`, zero padding `pad` and
dilation `dil` on an input of logical extent `(H, W)`. -/
def conv2d {inC outC : ℕ} (k pad dil : ℕ) (w : Fin outC → Fin inC → Fin k → Fin k → ℝ)
    (b : Fin outC → ℝ) (H W : ℕ) (v : Chans inC) : Chans outC :=
  fun o y x => b o + ∑ c : Fin inC, ∑ i : Fin k, ∑ j : Fin k,
    w o c i j * padR H W (v c) ((y : ℤ) - (pad : ℤ) + (dil : ℤ) * (i : ℕ))
      ((x : ℤ) - (pad : ℤ) + (dil : ℤ) * (j : ℕ))

/-- Output spatial extent of a stride-1 `conv2d`:
`n + 2 * pad - dil * (k - 1)`. -/
def convOutDim (n k pad dil : ℕ) : ℕ := n + 2 * pad - dil * (k - 1)

/-- `nn.InstanceNorm2d`'s default epsilon (1e-5). -/
def instnorm_eps : ℝ := 1 / 100000

/-- `nn.InstanceNorm2d(1, affine=True)` on a single-channel grid of
logical extent `(H, W)`: normalise by the per-sample spatial mean and
(biased) variance, then apply the affine parameters. -/
def instanceNorm2d (gamma beta : ℝ) (H W : ℕ) (f : ℕ → ℕ → ℝ) : ℕ → ℕ → ℝ :=
  fun y x =>
    let mu := (∑ r ∈ Finset.range H, ∑ c ∈ Finset.range W, f r c) / (H * W : ℝ)
    let sigma2 :=
      (∑ r ∈ Finset.range H, ∑ c ∈ Finset.range W, (f r c - mu) ^ 2) / (H * W : ℝ)
    gamma * ((f y x - mu) / Real.sqrt (sigma2 + instnorm_eps)) + beta

/-- `F.leaky_relu` with its default negative slope 0.01. -/
def leaky_relu (x : ℝ) : ℝ := if x < 0 then (1 / 100) * x else x

/-- `torch.nn.Upsample(mode='bilinear')` (`align_corners=False`) from
extent `(Hin, Win)` to `(Hout, Wout)`: each output pixel maps to the
source coordinate `(dst + 0.5) * in / out - 0.5` (clamped at 0), and the
four surrounding source pixels (edge-clamped) are blended bilinearly. -/
def resize_bilinear (Hin Win Hout Wout : ℕ) (f : ℕ → ℕ → ℝ) : ℕ → ℕ → ℝ :=
  fun y x =>
    let sy : ℚ := max 0 (((y : ℚ) + 1 / 2) * Hin / Hout - 1 / 2)
    let sx : ℚ := max 0 (((x : ℚ) + 1 / 2) * Win / Wout - 1 / 2)
    let y0 : ℕ := ⌊sy⌋.toNat
    let x0 : ℕ := ⌊sx⌋.toNat
    let y1 : ℕ := min (y0 + 1) (Hin - 1)
    let x1 : ℕ := min (x0 + 1) (Win - 1)
    let ly : ℝ := (sy : ℝ) - (y0 : ℝ)
    let lx : ℝ := (sx : ℝ) - (x0 : ℝ)
    (1 - ly) * (1 - lx) * f y0 x0 + (1 - ly) * lx * f y0 x1 +
      ly * (1 - lx) * f y1 x0 + ly * lx * f y1 x1

/-- Modelled from the spec: `L2Norm` (imported from `utils.math_utils`,
source not provided) performs channel-wise L2 normalisation with a small
epsilon: each channel vector is divided by the square root of its squared
norm plus `eps`. -/
def L2Norm {n : ℕ} (eps : ℝ) (v : Fin n → ℝ) : Fin n → ℝ :=
  fun i => v i / Real.sqrt ((∑ j, v j ^ 2) + eps)

/-- Softmax over `n` bins with competition strength `c`, the weighting
underlying the modelled soft-NMS / soft-argmax primitives. -/
def softmax1d {n : ℕ} (c : ℝ) (p : Fin n → ℝ) : Fin n → ℝ :=
  fun i => Real.exp (c * p i) / ∑ j, Real.exp (c * p j)

/-- Modelled from the spec: `soft_nms_3d` (imported from
`utils.image_utils`, source not provided): differentiable soft
non-maximum suppression of the channel-last 3-scale score volume — a
softmax-style competition of `exp(c * score)` against the `ks × ks`
spatial neighbourhood across all 3 scale channels. -/
def soft_nms_3d (ks : ℕ) (c : ℝ) (H W : ℕ) (s : ℕ → ℕ → Fin 3 → ℝ) :
    ℕ → ℕ → Fin 3 → ℝ :=
  fun y x i =>
    Real.exp (c * s y x i) /
      ∑ p ∈ (Finset.range H ×ˢ Finset.range W).filter (fun p =>
          y ≤ p.1 + ks / 2 ∧ p.1 ≤ y + ks / 2 ∧ x ≤ p.2 + ks / 2 ∧ p.2 ≤ x + ks / 2),
        ∑ j : Fin 3, Real.exp (c * s p.1 p.2 j)

/-- Modelled from the spec: `soft_max_and_argmax_1d` (imported from
`utils.image_utils`, source not provided): per pixel, the soft-argmax
over the 3 scale bins with two independent competition strengths,
returning the softly selected score (weights from `c1`, combining the
per-scale values) and scale (weights from `c2`, combining the fixed scale
anchors `sl`). -/
def soft_max_and_argmax_1d (c1 c2 : ℝ) (sl : Fin 3 → ℝ) (p : Fin 3 → ℝ) : ℝ × ℝ :=
  (∑ i, softmax1d c1 p i * p i, ∑ i, softmax1d c2 p i * sl i)

/-- The learned-parameter state recorded by `RFDet.__init__`
(det.py lines 105-143): the competition strengths, the convolution
geometry (`ksize`, `padding`, `dilation`), and the weights of the single
shared score head `conv_1_1`/`insnorm_1_1`, of the (unused in `forward`)
`conv_scale`/`insnorm_scale`, and of `conv_ori`.  The pipeline constants
(`NMS_THRESH` … `GAUSSIAN_SIGMA`) consumed by `process` are passed to
`process` explicitly. -/
structure RFDet where
  score_com_strength : ℝ
  scale_com_strength : ℝ
  ksize : ℕ
  padding : ℕ
  dilation : ℕ
  conv_1_1_w : Fin 1 → Fin 12 → Fin ksize → Fin ksize → ℝ
  conv_1_1_b : Fin 1 → ℝ
  insnorm_1_1_gamma : ℝ
  insnorm_1_1_beta : ℝ
  conv_scale_w : Fin 1 → Fin 3 → Fin 3 → Fin 3 → ℝ
  conv_scale_b : Fin 1 → ℝ
  insnorm_scale_gamma : ℝ
  insnorm_scale_beta : ℝ
  conv_ori_w : Fin 2 → Fin 12 → Fin 1 → Fin 1 → ℝ
  conv_ori_b : Fin 2 → ℝ

/-- `self.scale_list = torch.tensor([12.0, 32.0, 64.0])`
(det.py line 143). -/
def scale_list : Fin 3 → ℝ := ![12.0, 32.0, 64.0]

/-- The shared score head: `F.leaky_relu(self.insnorm_1_1(self.conv_1_1(f)))`
applied to a 12-channel grid of logical extent `(H, W)` (det.py
lines 151-153 apply this one parameter set at each of the three
scales). -/
def RFDet.head (d : RFDet) (H W : ℕ) (fm : Chans 12) : ℕ → ℕ → ℝ :=
  fun y x => leaky_relu (instanceNorm2d d.insnorm_1_1_gamma d.insnorm_1_1_beta
    (convOutDim H d.ksize d.padding d.dilation) (convOutDim W d.ksize d.padding d.dilation)
    ((conv2d d.ksize d.padding d.dilation d.conv_1_1_w d.conv_1_1_b H W fm) 0) y x)

/-- det.py lines 148-162: the per-scale score maps.  `feature_map_2` and
`feature_map_3` are the 0.75x and 0.5x bilinear-downsampled copies of the
feature map (`Upsample(scale_factor=...)`, output extent `⌊s·n⌋`);
`f1`/`f2`/`f3` each apply `self.conv_1_1`, `self.insnorm_1_1` and
`F.leaky_relu`; the downsampled results are bilinearly upsampled back to
`(H, W)` and the three maps are stacked channel-last. -/
def RFDet.score_volume (d : RFDet) (H W : ℕ) (fm : Chans 12) : ℕ → ℕ → Fin 3 → ℝ :=
  let feature_map_2 : Chans 12 := fun c => resize_bilinear H W (3 * H / 4) (3 * W / 4) (fm c)
  let feature_map_3 : Chans 12 := fun c => resize_bilinear H W (H / 2) (W / 2) (fm c)
  let f1 := fun y x => leaky_relu (instanceNorm2d d.insnorm_1_1_gamma d.insnorm_1_1_beta
    (convOutDim H d.ksize d.padding d.dilation) (convOutDim W d.ksize d.padding d.dilation)
    ((conv2d d.ksize d.padding d.dilation d.conv_1_1_w d.conv_1_1_b H W fm) 0) y x)
  let f2 := fun y x => leaky_relu (instanceNorm2d d.insnorm_1_1_gamma d.insnorm_1_1_beta
    (convOutDim (3 * H / 4) d.ksize d.padding d.dilation)
    (convOutDim (3 * W / 4) d.ksize d.padding d.dilation)
    ((conv2d d.ksize d.padding d.dilation d.conv_1_1_w d.conv_1_1_b
      (3 * H / 4) (3 * W / 4) feature_map_2) 0) y x)
  let f3 := fun y x => leaky_relu (instanceNorm2d d.insnorm_1_1_gamma d.insnorm_1_1_beta
    (convOutDim (H / 2) d.ksize d.padding d.dilation)
    (convOutDim (W / 2) d.ksize d.padding d.dilation)
    ((conv2d d.ksize d.padding d.dilation d.conv_1_1_w d.conv_1_1_b
      (H / 2) (W / 2) feature_map_3) 0) y x)
  fun y x =>
    ![f1 y x,
      resize_bilinear (convOutDim (3 * H / 4) d.ksize d.padding d.dilation)
        (convOutDim (3 * W / 4) d.ksize d.padding d.dilation) H W f2 y x,
      resize_bilinear (convOutDim (H / 2) d.ksize d.padding d.dilation)
        (convOutDim (W / 2) d.ksize d.padding d.dilation) H W f3 y x]

/-- `self.conv_ori(feature_map)` (det.py line 173): the 1x1 2-channel
orientation convolution before L2 normalisation. -/
def RFDet.ori_pre (d : RFDet) (H W : ℕ) (fm : Chans 12) : Chans 2 :=
  conv2d 1 0 1 d.conv_ori_w d.conv_ori_b H W fm

/-- det.py lines 145-176 from the backbone output onward: builds the
score volume, applies `soft_nms_3d` (ksize 15, strength 10.0) and
`soft_max_and_argmax_1d`, and L2-normalises the orientation convolution;
returns `(score_map, scale_map, ori_map)` channel-last.  `l2eps` is the
epsilon of the modelled `L2Norm`. -/
def RFDet.forwardFromFeatures (d : RFDet) (l2eps : ℝ) (H W : ℕ) (fm : Chans 12) :
    (ℕ → ℕ → ℝ) × (ℕ → ℕ → ℝ) × (ℕ → ℕ → Fin 2 → ℝ) :=
  let score_maps := d.score_volume H W fm
  let scale_probs := soft_nms_3d 15 (10 : ℝ) H W score_maps
  let sm := fun y x => soft_max_and_argmax_1d d.score_com_strength d.scale_com_strength
    scale_list (fun i => scale_probs y x i)
  ((fun y x => (sm y x).1), (fun y x => (sm y x).2),
    fun y x i => L2Norm l2eps (fun j => d.ori_pre H W fm j y x) i)

/-- A concrete detector state used as evaluation input: zero score-head
weights, and orientation convolution with zero weights and bias
`(3, 4)`, so the pre-normalisation orientation vector is `(3, 4)` at
every pixel. -/
def rfdet_w0 : RFDet :=
  { score_com_strength := 1
    scale_com_strength := 1
    ksize := 3
    padding := 1
    dilation := 1
    conv_1_1_w := fun _ _ _ _ => 0
    conv_1_1_b := fun _ => 0
    insnorm_1_1_gamma := 1
    insnorm_1_1_beta := 0
    conv_scale_w := fun _ _ _ _ => 0
    conv_scale_b := fun _ => 0
    insnorm_scale_gamma := 1
    insnorm_scale_beta := 0
    conv_ori_w := fun _ _ _ _ => 0
    conv_ori_b := ![3, 4] }

/-- Like `rfdet_w0`, but with an all-zero orientation convolution, so the
pre-normalisation orientation vector is `(0, 0)` at every pixel. -/
def rfdet_zero : RFDet :=
  { rfdet_w0 with conv_ori_b := fun _ => 0 }

end

/-! # Theorems -/

/-! ## Channel-shuffle index lemmas -/

/-- Element lookup in the flattening of a list of uniform-length rows. -/
theorem flatten_uniform_getElem {α : Type} (g : ℕ) (hg : 0 < g) :
    ∀ (L : List (List α)), (∀ l ∈ L, l.length = g) → ∀ i : ℕ,
      L.flatten[i]? = (L[i / g]?).bind (fun l => l[i % g]?) := by
  intro L
  induction L with
  | nil => intro _ i; simp
  | cons l L ih =>
    intro h i
    have hl : l.length = g := h l (List.mem_cons_self l L)
    have hL : ∀ m ∈ L, m.length = g := fun m hm => h m (List.mem_cons_of_mem _ hm)
    rw [List.flatten_cons]
    by_cases hi : i < g
    · rw [List.getElem?_append]
      have d0 : i / g = 0 := Nat.div_eq_of_lt hi
      have m0 : i % g = i := Nat.mod_eq_of_lt hi
      simp [d0, m0, hl, hi]
    · push_neg at hi
      rw [List.getElem?_append_right (by rw [hl]; exact hi)]
      rw [hl, ih hL (i - g)]
      have d1 : i / g = (i - g) / g + 1 := Nat.div_eq_sub_div hg hi
      have m1 : i % g = (i - g) % g := Nat.mod_eq_sub_mod hi
      rw [d1, m1]
      simp

/-- `channel_shuffle` preserves the channel count (when the group count
divides it; in general the count is rounded down to a multiple). -/
theorem channel_shuffle_length {α : Type} [Inhabited α] (x : List α) (g : ℕ) :
    (channel_shuffle x g).length = (x.length / g) * g := by
  simp [channel_shuffle, List.length_flatten, List.map_map, Function.comp_def,
    List.map_const', List.sum_replicate, smul_eq_mul]

/-- The permutation computed by `channel_shuffle`: output channel `i`
holds input channel `(i % g) * (C / g) + i / g`. -/
theorem channel_shuffle_getElem {α : Type} [Inhabited α] (x : List α) (g : ℕ)
    (hg : 0 < g) (i : ℕ) (hi : i < (x.length / g) * g) :
    (channel_shuffle x g)[i]? =
      some (x.getD ((i % g) * (x.length / g) + i / g) default) := by
  unfold channel_shuffle
  rw [flatten_uniform_getElem g hg _ (by
    intro l hl
    simp only [List.mem_map] at hl
    obtain ⟨c, _, rfl⟩ := hl
    simp) i]
  have hdiv : i / g < x.length / g := (Nat.div_lt_iff_lt_mul hg).mpr hi
  have hmod : i % g < g := Nat.mod_lt _ hg
  rw [List.getElem?_map, List.getElem?_range hdiv]
  simp [List.getElem?_map, List.getElem?_range hmod]

/-- Shuffling with `g` groups and then with `C / g` groups restores the
original channel ordering. -/
theorem channel_shuffle_comp {α : Type} [Inhabited α] (x : List α) (g : ℕ)
    (hg : 0 < g) (hdvd : g ∣ x.length) :
    channel_shuffle (channel_shuffle x g) (x.length / g) = x := by
  rcases Nat.eq_zero_or_pos x.length with hn | hn
  · have hx : x = [] := List.length_eq_zero.mp hn
    subst hx
    simp [channel_shuffle]
  · have hgle : g ≤ x.length := Nat.le_of_dvd hn hdvd
    have hcpg : 0 < x.length / g := Nat.div_pos hgle hg
    have hmul : (x.length / g) * g = x.length := Nat.div_mul_cancel hdvd
    have hlen1 : (channel_shuffle x g).length = x.length := by
      rw [channel_shuffle_length, hmul]
    have hg2 : x.length / (x.length / g) = g := by
      obtain ⟨k, hk⟩ := hdvd
      have hkpos : 0 < k := by
        rcases Nat.eq_zero_or_pos k with h0 | h0
        · subst h0
          rw [Nat.mul_zero] at hk
          omega
        · exact h0
      have hk1 : x.length / g = k := by rw [hk, Nat.mul_div_cancel_left k hg]
      rw [hk1, hk, Nat.mul_div_cancel g hkpos]
    apply List.ext_getElem?
    intro i
    by_cases hi : i < x.length
    · have hb1 : i < ((channel_shuffle x g).length / (x.length / g)) * (x.length / g) := by
        rw [hlen1, hg2, Nat.mul_div_cancel' hdvd]
        exact hi
      rw [channel_shuffle_getElem (channel_shuffle x g) (x.length / g) hcpg i hb1]
      rw [hlen1, hg2]
      have h2 : i / (x.length / g) < g := by
        rw [Nat.div_lt_iff_lt_mul hcpg]
        rw [Nat.mul_comm] at hmul
        rw [hmul]
        exact hi
      have h1 : i % (x.length / g) < x.length / g := Nat.mod_lt _ hcpg
      set cpg := x.length / g with hcpgdef
      set j := (i % cpg) * g + i / cpg with hjdef
      have hjlt : j < x.length := by
        have : j < ((i % cpg) + 1) * g := by
          rw [Nat.add_mul, Nat.one_mul]
          omega
        have h3 : ((i % cpg) + 1) * g ≤ cpg * g := Nat.mul_le_mul_right g h1
        rw [← hmul]
        omega
      have hjq : (channel_shuffle x g).getD j default
          = x.getD ((j % g) * cpg + j / g) default := by
        rw [List.getD_eq_getElem?_getD,
          channel_shuffle_getElem x g hg j (by rw [hmul]; exact hjlt)]
        rfl
      have hjm : j % g = i / cpg := by
        rw [hjdef, Nat.mul_comm (i % cpg) g, Nat.mul_add_mod, Nat.mod_eq_of_lt h2]
      have hjd : j / g = i % cpg := by
        rw [hjdef, Nat.mul_comm (i % cpg) g, Nat.mul_add_div hg,
          Nat.div_eq_of_lt h2, Nat.add_zero]
      have hidx : (j % g) * cpg + j / g = i := by
        rw [hjm, hjd, Nat.mul_comm, Nat.div_add_mod]
      rw [hjq, hidx, List.getD_eq_getElem x default hi,
        List.getElem?_eq_getElem hi]
    · push_neg at hi
      rw [List.getElem?_eq_none (by
          rw [channel_shuffle_length, hlen1, hg2, Nat.mul_div_cancel' hdvd]
          exact hi),
        List.getElem?_eq_none hi]

/-- C7 counterexample: on 6 channels, applying `channel_shuffle` with
`groups = 2` twice does not recover the original channel ordering
(it sends `[0, 1, 2, 3, 4, 5]` to `[0, 4, 3, 2, 1, 5]`), refuting the
claim that the shuffle is its own structural inverse on every even
channel count. -/
theorem channel_shuffle_two_not_involutive :
    channel_shuffle (channel_shuffle [0, 1, 2, 3, 4, 5] 2) 2 ≠ [0, 1, 2, 3, 4, 5] := by
  decide

/-- C7 (amended): `channel_shuffle` with group count 2 is a bijection on
channel orderings of any fixed even channel count — it is injective, and
every ordering is reached — and the original ordering is recovered by the
de-interleaving shuffle with `C / 2` groups (not, in general, by a second
`groups = 2` shuffle). -/
theorem channel_shuffle_two_bijection {α : Type} [Inhabited α] (x y : List α)
    (hx : 2 ∣ x.length) (hxy : x.length = y.length) :
    (channel_shuffle x 2 = channel_shuffle y 2 → x = y) ∧
    (∃ z : List α, z.length = x.length ∧ channel_shuffle z 2 = y) ∧
    channel_shuffle (channel_shuffle x 2) (x.length / 2) = x := by
  have hy : 2 ∣ y.length := hxy ▸ hx
  have hcx := channel_shuffle_comp x 2 two_pos hx
  have hcy := channel_shuffle_comp y 2 two_pos hy
  refine ⟨?_, ?_, hcx⟩
  · intro h
    rw [← hcx, h, hxy, hcy]
  · rcases Nat.eq_zero_or_pos y.length with h0 | h0
    · refine ⟨[], by simpa [hxy] using h0.symm, ?_⟩
      have : y = [] := List.length_eq_zero.mp h0
      subst this
      simp [channel_shuffle]
    · have h2 : 0 < y.length / 2 := Nat.div_pos (Nat.le_of_dvd h0 hy) two_pos
      have hd2 : (y.length / 2) ∣ y.length := Nat.div_dvd_of_dvd hy
      have hcomp := channel_shuffle_comp y (y.length / 2) h2 hd2
      have hq : y.length / (y.length / 2) = 2 :=
        Nat.div_div_self hy (by omega)
      rw [hq] at hcomp
      refine ⟨channel_shuffle y (y.length / 2), ?_, hcomp⟩
      rw [channel_shuffle_length, Nat.div_mul_cancel hd2]
      exact hxy.symm

/-- Witness for `channel_shuffle_two_bijection` at two concrete
6-channel orderings. -/
theorem channel_shuffle_two_bijection_witness :
    (channel_shuffle [0, 1, 2, 3, 4, 5] 2 = channel_shuffle [5, 4, 3, 2, 1, 0] 2 →
      [0, 1, 2, 3, 4, 5] = [5, 4, 3, 2, 1, 0]) ∧
    (∃ z : List ℕ, z.length = 6 ∧ channel_shuffle z 2 = [5, 4, 3, 2, 1, 0]) ∧
    channel_shuffle (channel_shuffle [0, 1, 2, 3, 4, 5] 2) 3 = [0, 1, 2, 3, 4, 5] :=
  channel_shuffle_two_bijection [0, 1, 2, 3, 4, 5] [5, 4, 3, 2, 1, 0]
    (by decide) (by decide)

/-! ## `process` -/

/-- C1 counterexample: on a 1x1x2 score map with values `[5, 3]` (trivial
border, NMS window 1, threshold -1, `TOPK = 1`), the third value returned
by `process` at pixel `(0, 1)` is `3` (the NMS-masked score), while the
top-k-masked score described by the spec is `0`: `topk_value` is captured
before the top-k mask is applied. -/
theorem process_third_output_not_topk_masked :
    (process 0 (-1) 1 1 1 (fun _ _ => (1 : ℚ))
        (fun (_ : Fin 1) (_ : Fin 1) (x : Fin 2) => if x.val = 0 then (5 : ℚ) else 3)).2.2
        0 0 1
      ≠ spec_topk_value 0 (-1) 1 1
          (fun (_ : Fin 1) (_ : Fin 1) (x : Fin 2) => if x.val = 0 then (5 : ℚ) else 3)
          0 0 1 := by
  decide

/-- C1 (amended): for every warped score map, the third value returned by
`RFDet.process` equals the score map after border filtering and NMS
masking, **before** top-k masking (and before Gaussian smoothing). -/
theorem process_third_output_eq_nms_masked {B H W : ℕ} (border : ℕ) (thresh : ℚ)
    (nksize topk gk : ℕ) (psf : Fin gk → Fin gk → ℚ) (v : ScoreMap B H W) :
    (process border thresh nksize topk gk psf v).2.2
      = fun bi y x =>
          if nms thresh nksize (filter_border border v) bi y x then
            filter_border border v bi y x
          else 0 :=
  rfl

/-- C6: recomputing the top-k map (with the same `TOPK`) from the third
output of `RFDet.process` reproduces exactly the top-k mask that
`process` returned as its second output, because the third output is
precisely the tensor that `process` fed to `topk_map`. -/
theorem process_topk_mask_recomputable {B H W : ℕ} (border : ℕ) (thresh : ℚ)
    (nksize topk gk : ℕ) (psf : Fin gk → Fin gk → ℚ) (v : ScoreMap B H W) :
    topk_map topk (process border thresh nksize topk gk psf v).2.2
      = (process border thresh nksize topk gk psf v).2.1 :=
  rfl

/-! ## `loss` -/

/-- C9: for every predicted and ground-truth score map of matching shape,
the per-element denominator of `RFDet.loss` is bounded below by the
2.0 floor (so strictly positive — the division never blows up), and with
an all-zero visibility mask the loss is exactly `0`, a finite value. -/
theorem loss_zero_mask_finite {B C H W : ℕ}
    (left_score im1gt_score : Fin B → Fin C → Fin H → Fin W → ℚ) :
    (∀ mask : Fin B → Fin C → Fin H → Fin W → ℚ, ∀ b : Fin B,
        0 < Nvi mask b + 1 / 100000000) ∧
    loss left_score im1gt_score (fun _ _ _ _ => 0) = 0 := by
  constructor
  · intro mask b
    have h2 : (2 : ℚ) ≤ Nvi mask b := le_max_right _ _
    linarith
  · simp [loss]

/-! ## `InvertedResidual` failure modes -/

/-- C10: for every `benchmodel` outside `{1, 2}` (with stride in
`{1, 2}`), constructing an `InvertedResidual` succeeds, but every
subsequent call to its `forward` fails, because neither branch of
`forward` assigns the output variable `out`. -/
theorem invres_forward_fails_for_bad_benchmodel {α : Type} [Inhabited α]
    (banch1 banch2 : List α → List α) (inp oup stride bm : ℤ)
    (hs : stride = 1 ∨ stride = 2) (h1 : bm ≠ 1) (h2 : bm ≠ 2) :
    ∃ m : InvertedResidual α,
      InvertedResidual.init banch1 banch2 inp oup stride bm = Except.ok m ∧
      ∀ x : List α, m.forward x
        = Except.error "UnboundLocalError: local variable out referenced before assignment" := by
  refine ⟨⟨bm, stride, banch1, banch2⟩, ?_, ?_⟩
  · simp [InvertedResidual.init, hs]
  · intro x
    simp [InvertedResidual.forward, h1, h2]

/-- Witness for `invres_forward_fails_for_bad_benchmodel` at
`stride = 1`, `benchmodel = 3`. -/
theorem invres_forward_fails_witness :
    ∃ m : InvertedResidual ℕ,
      InvertedResidual.init id id 3 12 1 3 = Except.ok m ∧
      ∀ x : List ℕ, m.forward x
        = Except.error "UnboundLocalError: local variable out referenced before assignment" :=
  invres_forward_fails_for_bad_benchmodel id id 3 12 1 3 (Or.inl rfl)
    (by decide) (by decide)

/-- C8 counterexample: with `stride = 1` (so the stride assertion passes)
and `benchmodel = 3`, construction succeeds yet `forward` fails — a
failure mode beyond the constructor's stride assertion, refuting "no
other input to the constructor or to forward causes a failure". -/
theorem invres_failure_beyond_stride_assert :
    InvertedResidual.init (α := ℕ) id id 3 12 1 3 = Except.ok ⟨3, 1, id, id⟩ ∧
    InvertedResidual.forward (⟨3, 1, id, id⟩ : InvertedResidual ℕ) [0, 1, 2, 3]
      = Except.error "UnboundLocalError: local variable out referenced before assignment" := by
  constructor
  · rfl
  · rfl

/-- C8 (amended): the constructor raises exactly when `stride ∉ {1, 2}`;
and as long as `benchmodel ∈ {1, 2}`, no other input to the constructor
or to `forward` causes a failure (for `benchmodel ∉ {1, 2}`, `forward`
fails, see `invres_forward_fails_for_bad_benchmodel`). -/
theorem invres_failure_modes {α : Type} [Inhabited α]
    (banch1 banch2 : List α → List α) (inp oup stride bm : ℤ) :
    ((∃ m : InvertedResidual α,
        InvertedResidual.init banch1 banch2 inp oup stride bm = Except.ok m) ↔
      stride = 1 ∨ stride = 2) ∧
    (stride = 1 ∨ stride = 2 → bm = 1 ∨ bm = 2 →
      ∀ x : List α, ∃ m y,
        InvertedResidual.init banch1 banch2 inp oup stride bm = Except.ok m ∧
        m.forward x = Except.ok y) := by
  constructor
  · constructor
    · rintro ⟨m, hm⟩
      by_contra hc
      simp [InvertedResidual.init, hc] at hm
    · intro hs
      exact ⟨⟨bm, stride, banch1, banch2⟩, by simp [InvertedResidual.init, hs]⟩
  · intro hs hbm x
    rcases hbm with h | h
    · subst h
      refine ⟨⟨1, stride, banch1, banch2⟩,
        channel_shuffle (x.take (x.length / 2) ++ banch2 (x.drop (x.length / 2))) 2,
        by simp [InvertedResidual.init, hs], by simp [InvertedResidual.forward]⟩
    · subst h
      refine ⟨⟨2, stride, banch1, banch2⟩,
        channel_shuffle (banch1 x ++ banch2 x) 2,
        by simp [InvertedResidual.init, hs], by simp [InvertedResidual.forward]⟩

/-- Witness for `invres_failure_modes` at `stride = 1`,
`benchmodel = 1`. -/
theorem invres_failure_modes_witness :
    ∃ m y, InvertedResidual.init (α := ℕ) id id 3 12 1 1 = Except.ok m ∧
      InvertedResidual.forward m [0, 1] = Except.ok y :=
  (invres_failure_modes id id 3 12 1 1).2 (Or.inl rfl) (Or.inl rfl) [0, 1]

/-! ## The `forward` path -/

/-- C5: the three per-scale score maps of `RFDet.forward` are all
produced by one and the same convolution-plus-instance-norm head — the
single parameter set `conv_1_1_w`/`conv_1_1_b`/`insnorm_1_1_gamma`/
`insnorm_1_1_beta` of the detector state, packaged as `RFDet.head` —
applied to the original feature map and to its 0.75x and 0.5x
bilinear-downsampled copies (the latter two upsampled back to
`(H, W)`). -/
theorem score_volume_single_shared_head (d : RFDet) (H W : ℕ) (fm : Chans 12) :
    d.score_volume H W fm = fun y x =>
      ![d.head H W fm y x,
        resize_bilinear (convOutDim (3 * H / 4) d.ksize d.padding d.dilation)
          (convOutDim (3 * W / 4) d.ksize d.padding d.dilation) H W
          (d.head (3 * H / 4) (3 * W / 4)
            (fun c => resize_bilinear H W (3 * H / 4) (3 * W / 4) (fm c))) y x,
        resize_bilinear (convOutDim (H / 2) d.ksize d.padding d.dilation)
          (convOutDim (W / 2) d.ksize d.padding d.dilation) H W
          (d.head (H / 2) (W / 2)
            (fun c => resize_bilinear H W (H / 2) (W / 2) (fm c))) y x] :=
  rfl

/-- Softmax weights are non-negative. -/
theorem softmax1d_nonneg {n : ℕ} (c : ℝ) (p : Fin n → ℝ) (i : Fin n) :
    0 ≤ softmax1d c p i :=
  div_nonneg (Real.exp_pos _).le (Finset.sum_nonneg fun _ _ => (Real.exp_pos _).le)

/-- Softmax weights over a non-empty index set sum to 1. -/
theorem softmax1d_sum_eq_one {n : ℕ} (hn : 0 < n) (c : ℝ) (p : Fin n → ℝ) :
    ∑ i, softmax1d c p i = 1 := by
  have hne : Nonempty (Fin n) := ⟨⟨0, hn⟩⟩
  have hpos : 0 < ∑ j, Real.exp (c * p j) :=
    Finset.sum_pos (fun j _ => Real.exp_pos _) Finset.univ_nonempty
  unfold softmax1d
  rw [← Finset.sum_div, div_self hpos.ne']

/-- C3: every value of the scale map returned by `RFDet.forward` is a
convex combination of the fixed scale list `{12.0, 32.0, 64.0}` and so
lies within `[12.0, 64.0]` — for every detector state and every feature
map, hence for every valid input image batch. -/
theorem forward_scale_map_within_scale_list (d : RFDet) (l2eps : ℝ) (H W : ℕ)
    (fm : Chans 12) (y x : ℕ) :
    12 ≤ (d.forwardFromFeatures l2eps H W fm).2.1 y x ∧
      (d.forwardFromFeatures l2eps H W fm).2.1 y x ≤ 64 := by
  have key : ∀ p : Fin 3 → ℝ, ∀ c : ℝ,
      12 ≤ ∑ i, softmax1d c p i * scale_list i ∧
        ∑ i, softmax1d c p i * scale_list i ≤ 64 := by
    intro p c
    have hw := fun i => softmax1d_nonneg c p i
    have hsum := softmax1d_sum_eq_one (by norm_num : (0 : ℕ) < 3) c p
    have hlo : ∀ i : Fin 3, (12 : ℝ) ≤ scale_list i := by
      intro i
      fin_cases i <;> norm_num [scale_list]
    have hhi : ∀ i : Fin 3, scale_list i ≤ (64 : ℝ) := by
      intro i
      fin_cases i <;> norm_num [scale_list]
    constructor
    · calc (12 : ℝ) = ∑ i, softmax1d c p i * 12 := by
            rw [← Finset.sum_mul, hsum, one_mul]
        _ ≤ ∑ i, softmax1d c p i * scale_list i :=
            Finset.sum_le_sum (fun i _ => mul_le_mul_of_nonneg_left (hlo i) (hw i))
    · calc ∑ i, softmax1d c p i * scale_list i
          ≤ ∑ i, softmax1d c p i * 64 :=
            Finset.sum_le_sum (fun i _ => mul_le_mul_of_nonneg_left (hhi i) (hw i))
        _ = 64 := by rw [← Finset.sum_mul, hsum, one_mul]
  exact key _ _

/-- C4: every value of the score map returned by `RFDet.forward` is
non-negative — it is a softmax-weighted combination of the non-negative
`soft_nms_3d` probabilities — for every detector state and every feature
map, hence for every valid input image batch. -/
theorem forward_score_map_nonneg (d : RFDet) (l2eps : ℝ) (H W : ℕ) (fm : Chans 12)
    (y x : ℕ) : 0 ≤ (d.forwardFromFeatures l2eps H W fm).1 y x := by
  have key : ∀ p : Fin 3 → ℝ, (∀ i, 0 ≤ p i) → ∀ c : ℝ,
      0 ≤ ∑ i, softmax1d c p i * p i :=
    fun p hp c => Finset.sum_nonneg fun i _ => mul_nonneg (softmax1d_nonneg c p i) (hp i)
  refine key _ (fun i => ?_) d.score_com_strength
  simp only [soft_nms_3d]
  exact div_nonneg (Real.exp_pos _).le (Finset.sum_nonneg fun q _ =>
    Finset.sum_nonneg fun j _ => (Real.exp_pos _).le)

/-- C2 (amended): at every pixel whose pre-normalisation orientation
2-vector is non-zero, the orientation map returned by `RFDet.forward`
has squared L2 norm `s / (s + eps)` (`s` the squared norm of the
pre-normalisation vector), hence within `eps / s` of 1 — unit norm up to
the L2Norm epsilon.  (Pixels whose pre-normalisation vector is zero map
to the zero vector instead, see the counterexample.) -/
theorem forward_ori_map_unit_norm (d : RFDet) (l2eps : ℝ) (H W : ℕ) (fm : Chans 12)
    (y x : ℕ) (heps : 0 < l2eps)
    (hs : 0 < ∑ j : Fin 2, d.ori_pre H W fm j y x ^ 2) :
    (∑ i : Fin 2, (d.forwardFromFeatures l2eps H W fm).2.2 y x i ^ 2)
        = (∑ j : Fin 2, d.ori_pre H W fm j y x ^ 2) /
            ((∑ j : Fin 2, d.ori_pre H W fm j y x ^ 2) + l2eps) ∧
    |(∑ i : Fin 2, (d.forwardFromFeatures l2eps H W fm).2.2 y x i ^ 2) - 1|
        ≤ l2eps / (∑ j : Fin 2, d.ori_pre H W fm j y x ^ 2) := by
  have hse : 0 < (∑ j : Fin 2, d.ori_pre H W fm j y x ^ 2) + l2eps := by linarith
  have hev : ∀ i : Fin 2, (d.forwardFromFeatures l2eps H W fm).2.2 y x i
      = d.ori_pre H W fm i y x /
          Real.sqrt ((∑ j : Fin 2, d.ori_pre H W fm j y x ^ 2) + l2eps) :=
    fun i => rfl
  have hmain : (∑ i : Fin 2, (d.forwardFromFeatures l2eps H W fm).2.2 y x i ^ 2)
      = (∑ j : Fin 2, d.ori_pre H W fm j y x ^ 2) /
          ((∑ j : Fin 2, d.ori_pre H W fm j y x ^ 2) + l2eps) := by
    calc ∑ i : Fin 2, (d.forwardFromFeatures l2eps H W fm).2.2 y x i ^ 2
        = ∑ i : Fin 2, d.ori_pre H W fm i y x ^ 2 /
            Real.sqrt ((∑ j : Fin 2, d.ori_pre H W fm j y x ^ 2) + l2eps) ^ 2 := by
          refine Finset.sum_congr rfl fun i _ => ?_
          rw [hev i, div_pow]
      _ = (∑ i : Fin 2, d.ori_pre H W fm i y x ^ 2) /
            ((∑ j : Fin 2, d.ori_pre H W fm j y x ^ 2) + l2eps) := by
          rw [Real.sq_sqrt hse.le, Finset.sum_div]
  refine ⟨hmain, ?_⟩
  rw [hmain]
  have h1 : (∑ j : Fin 2, d.ori_pre H W fm j y x ^ 2) /
        ((∑ j : Fin 2, d.ori_pre H W fm j y x ^ 2) + l2eps) - 1
      = -(l2eps / ((∑ j : Fin 2, d.ori_pre H W fm j y x ^ 2) + l2eps)) := by
    field_simp
  rw [h1, abs_neg, abs_of_nonneg (div_nonneg heps.le hse.le)]
  exact div_le_div_of_nonneg_left heps.le hs (by linarith)

/-- Witness for `forward_ori_map_unit_norm`: detector `rfdet_w0` makes
the pre-normalisation vector `(3, 4)` (squared norm 25 > 0) at pixel
`(0, 0)` of a zero 4x4 feature map, with epsilon `1/10`. -/
theorem forward_ori_map_unit_norm_witness :
    (∑ i : Fin 2, (rfdet_w0.forwardFromFeatures (1 / 10) 4 4 (fun _ _ _ => 0)).2.2 0 0 i ^ 2)
        = (∑ j : Fin 2, rfdet_w0.ori_pre 4 4 (fun _ _ _ => 0) j 0 0 ^ 2) /
            ((∑ j : Fin 2, rfdet_w0.ori_pre 4 4 (fun _ _ _ => 0) j 0 0 ^ 2) + 1 / 10) ∧
    |(∑ i : Fin 2,
        (rfdet_w0.forwardFromFeatures (1 / 10) 4 4 (fun _ _ _ => 0)).2.2 0 0 i ^ 2) - 1|
        ≤ (1 / 10) / (∑ j : Fin 2, rfdet_w0.ori_pre 4 4 (fun _ _ _ => 0) j 0 0 ^ 2) :=
  forward_ori_map_unit_norm rfdet_w0 (1 / 10) 4 4 (fun _ _ _ => 0) 0 0 (by norm_num)
    (by
      have hb : ∀ j : Fin 2, rfdet_w0.ori_pre 4 4 (fun _ _ _ => 0) j 0 0
          = rfdet_w0.conv_ori_b j := by
        intro j
        simp [RFDet.ori_pre, conv2d, rfdet_w0]
      rw [Fin.sum_univ_two, hb 0, hb 1]
      norm_num [rfdet_w0])

/-- C2 counterexample: for the detector state `rfdet_zero` (all-zero
orientation convolution) and a zero input feature map, every pixel's
orientation 2-vector is the zero vector, whose L2 norm is 0 — not within
the L2Norm epsilon `1e-10` of unit norm.  So the unit-norm guarantee is
not enforced purely by construction: it fails when the pre-normalisation
vector vanishes. -/
theorem forward_ori_map_zero_vector_not_unit :
    (∀ i : Fin 2,
      (rfdet_zero.forwardFromFeatures (1 / 10000000000) 4 4 (fun _ _ _ => 0)).2.2 0 0 i = 0) ∧
    ¬ |Real.sqrt (∑ i : Fin 2,
          (rfdet_zero.forwardFromFeatures (1 / 10000000000) 4 4 (fun _ _ _ => 0)).2.2 0 0 i ^ 2)
        - 1| ≤ 1 / 10000000000 := by
  have hpre : ∀ j : Fin 2, rfdet_zero.ori_pre 4 4 (fun _ _ _ => 0) j 0 0 = 0 := by
    intro j
    simp [RFDet.ori_pre, conv2d, rfdet_zero, rfdet_w0]
  have hz : ∀ i : Fin 2,
      (rfdet_zero.forwardFromFeatures (1 / 10000000000) 4 4 (fun _ _ _ => 0)).2.2 0 0 i = 0 := by
    intro i
    show L2Norm (1 / 10000000000)
      (fun j => rfdet_zero.ori_pre 4 4 (fun _ _ _ => 0) j 0 0) i = 0
    simp [L2Norm, hpre]
  refine ⟨hz, ?_⟩
  rw [Fin.sum_univ_two, hz 0, hz 1]
  norm_num

end Det
